import Mathlib

/-!
Verification development for the `OplogBufferCollection` oplog staging queue
(`src/mongo/db/repl/oplog_buffer_collection.h`) and the `MetadataManager`
reference-counting component (`src/mongo/db/s/metadata_manager.h`).

The repository ships only the class headers and the unit-test file; the
method bodies live in a translation unit that is not part of this tree.
Every stateful operation below is therefore modelled from the specification
(and the headers' documented contracts), as noted in each doc comment.
The two codec helpers and the data model follow the header documentation and
the unit tests directly.
-/

namespace OplogBufferModel

/-- A model of BSON values, covering the cases exercised by the oplog buffer:
timestamps (`Timestamp(sec, inc)`), integers, strings and nested documents.
A document is a finite ordered list of named fields. -/
inductive BSONValue : Type where
  | timestamp (sec inc : Nat)
  | int (n : Int)
  | str (s : String)
  | doc (fields : List (String × BSONValue))

/-- A BSON document: an ordered list of (field name, value) pairs. -/
def BSONObj : Type := List (String × BSONValue)

/-- Field lookup, returning the first field with the given name, as
`BSONObj::getField` does. -/
def lookupField : BSONObj → String → Option BSONValue
  | [], _ => none
  | (n, v) :: rest, name => if n = name then some v else lookupField rest name

/-- `OplogBufferCollection::addIdToDocument`: returns a new document with an
`_id` field equal to the `ts` field of the provided document and an `entry`
field equal to the provided document.  The header states it assumes a `ts`
field is present; an entry without one is a caller-contract violation,
modelled as `none`. -/
def addIdToDocument (orig : BSONObj) : Option BSONObj :=
  match lookupField orig "ts" with
  | some tsVal => some [("_id", tsVal), ("entry", BSONValue.doc orig)]
  | none => none

/-- `OplogBufferCollection::extractEmbeddedOplogDocument`: returns the
embedded document in the `entry` field (the empty document when the field is
absent or not a document, as `getObjectField` would). -/
def extractEmbeddedOplogDocument (orig : BSONObj) : BSONObj :=
  match lookupField orig "entry" with
  | some (BSONValue.doc d) => d
  | _ => ([] : BSONObj)

/-- The oplog entry with timestamp `t` built by the unit tests'
`makeOplogEntry` helper. -/
def makeOplogEntry (t : Nat) : BSONObj :=
  [("ts", BSONValue.timestamp t t),
   ("h", BSONValue.int (Int.ofNat t)),
   ("ns", BSONValue.str "a.a"),
   ("v", BSONValue.int 2),
   ("op", BSONValue.str "i"),
   ("o", BSONValue.doc [("_id", BSONValue.int (Int.ofNat t)),
                        ("a", BSONValue.int (Int.ofNat t))])]

/-- C2: for every entry `e` that contains a `ts` field, unwrapping the
envelope produced by wrapping returns exactly the original document:
`extractEmbeddedOplogDocument (addIdToDocument e) = e`. -/
theorem extract_addId_roundtrip (e env : BSONObj)
    (h : addIdToDocument e = some env) :
    extractEmbeddedOplogDocument env = e := by
  unfold addIdToDocument at h
  cases hts : lookupField e "ts" with
  | none => rw [hts] at h; exact absurd h (by simp)
  | some v =>
    rw [hts] at h
    simp only [Option.some.injEq] at h
    subst h
    rfl

/-- Witness for C2 at the test entry with timestamp 1. -/
theorem extract_addId_roundtrip_witness :
    extractEmbeddedOplogDocument
      [("_id", BSONValue.timestamp 1 1),
       ("entry", BSONValue.doc (makeOplogEntry 1))] = makeOplogEntry 1 :=
  extract_addId_roundtrip (makeOplogEntry 1) _ (by rfl)

/-- C3: for every entry `e` whose `ts` field holds value `tsVal`,
`addIdToDocument e` is exactly the two-field envelope
`[(_id, tsVal), (entry, e)]`: the key equals the `ts` field of `e`, the
`entry` field is the unmodified original document, and no other fields are
added. -/
theorem addIdToDocument_shape (e : BSONObj) (tsVal : BSONValue)
    (h : lookupField e "ts" = some tsVal) :
    addIdToDocument e =
      some [("_id", tsVal), ("entry", BSONValue.doc e)] := by
  unfold addIdToDocument
  rw [h]

/-- Witness for C3 at the test entry with timestamp 1. -/
theorem addIdToDocument_shape_witness :
    addIdToDocument (makeOplogEntry 1) =
      some [("_id", BSONValue.timestamp 1 1),
            ("entry", BSONValue.doc (makeOplogEntry 1))] :=
  addIdToDocument_shape (makeOplogEntry 1) (BSONValue.timestamp 1 1) (by rfl)

mutual

/-- Serialized byte size of a BSON value: a structural measure standing for
the engine's serialized size.  The queue's accounting only depends on it
being a fixed function of the document. -/
def bsonValueSize : BSONValue → Nat
  | BSONValue.timestamp _ _ => 8
  | BSONValue.int _ => 8
  | BSONValue.str s => s.length + 5
  | BSONValue.doc fs => 5 + bsonFieldsSize fs

/-- Serialized byte size of a field list (name bytes plus tag and
terminator per field, plus the value's bytes). -/
def bsonFieldsSize : List (String × BSONValue) → Nat
  | [] => 0
  | (n, v) :: rest => n.length + 2 + bsonValueSize v + bsonFieldsSize rest

end

/-- `BSONObj::objsize` in the model: byte size of a whole document. -/
def objSize (o : BSONObj) : Nat := 5 + bsonFieldsSize o

/-- The ordering key of an entry: its `ts` field, a BSON timestamp modelled
as a `(sec, inc)` pair; `none` when the entry has no timestamp. -/
def tsKey (o : BSONObj) : Option (Nat × Nat) :=
  match lookupField o "ts" with
  | some (BSONValue.timestamp s i) => some (s, i)
  | _ => none

/-- Comparison of BSON timestamp keys: lexicographic on `(sec, inc)`,
matching the storage engine's ordering of `_id` keys. -/
def keyLe (a b : Nat × Nat) : Bool :=
  Nat.blt a.1 b.1 || (a.1 == b.1 && Nat.ble a.2 b.2)

/-- Modelled from the spec: the persisted record wrapping one entry,
`{key: ts, entry: <original Entry>}` (section 3; `addIdToDocument` puts the
key in the `_id` field). -/
structure Envelope : Type where
  key : Nat × Nat
  entry : BSONObj

/-- Modelled from the spec: the queue state — the durable backing
collection's contents (`store`, in insertion order; the store scans it in
key order), the mutex-protected counters `count` and `size`, the immutable
`maxSize` bound, and whether the backing collection currently exists.  The
method bodies of `OplogBufferCollection` are not part of this tree, so the
operations below follow sections 3-4 of the specification. -/
structure QueueState : Type where
  collectionExists : Bool
  store : List Envelope
  count : Nat
  size : Nat
  maxSize : Nat

/-- Modelled from the spec: the freshly constructed queue, before
`startup`: no backing collection, zero counters. -/
def initQueue (maxSize : Nat) : QueueState :=
  { collectionExists := false, store := [], count := 0, size := 0,
    maxSize := maxSize }

/-- Modelled from the spec: `startup` creates the backing durable
collection (empty), with counters at zero. -/
def startup (st : QueueState) : QueueState :=
  { st with collectionExists := true, store := [], count := 0, size := 0 }

/-- Modelled from the spec: `shutdown` drops the backing collection;
counters are irrelevant afterwards. -/
def shutdown (st : QueueState) : QueueState :=
  { st with collectionExists := false, store := [] }

/-- Modelled from the spec: `clear` deletes every envelope from the backing
collection and resets `count` and `size` to zero; the collection itself is
preserved. -/
def clear (st : QueueState) : QueueState :=
  { st with store := [], count := 0, size := 0 }

/-- Modelled from the spec: build the envelope for one entry
(`key` = the entry's `ts` field); an entry without a timestamp is a
caller-contract violation, modelled as `none`. -/
def mkEnvelope (o : BSONObj) : Option Envelope :=
  (tsKey o).map fun k => { key := k, entry := o }

/-- Modelled from the spec: build the envelopes for a batch of entries;
fails if any entry lacks a timestamp. -/
def mkEnvelopes : List BSONObj → Option (List Envelope)
  | [] => some []
  | d :: rest =>
    match mkEnvelope d, mkEnvelopes rest with
    | some e, some es => some (e :: es)
    | _, _ => none

/-- Modelled from the spec: the common insertion path of all push variants —
build the envelope for each value, perform a single batched insert into the
durable store, then add the batch's total byte size to `size` and its count
to `count`. -/
def insertBatch (st : QueueState) (docs : List BSONObj) :
    Option QueueState :=
  (mkEnvelopes docs).map fun envs =>
    { st with store := st.store ++ envs,
              count := st.count + envs.length,
              size := st.size + (envs.map fun e => objSize e.entry).sum }

/-- Modelled from the spec: `pushAllNonBlocking` inserts a batch without
blocking and without enforcing the capacity bound; returns whether the
batch was non-empty/inserted. -/
def pushAllNonBlocking (st : QueueState) (docs : List BSONObj) :
    Option (Bool × QueueState) :=
  (insertBatch st docs).map fun st' => (!docs.isEmpty, st')

/-- Modelled from the spec: the completed effect of a blocking `push` (the
capacity wait precedes the insertion and does not change state). -/
def push (st : QueueState) (doc : BSONObj) : Option QueueState :=
  insertBatch st [doc]

/-- Modelled from the spec: `pushEvenIfFull` inserts unconditionally,
ignoring `maxSize`. -/
def pushEvenIfFull (st : QueueState) (doc : BSONObj) : Option QueueState :=
  insertBatch st [doc]

/-- Modelled from the spec: the store's ascending key scan with limit 1 —
the envelope with the smallest key (the first such envelope in insertion
order when keys are duplicated). -/
def minEnvelope : List Envelope → Option Envelope
  | [] => none
  | e :: rest =>
    match minEnvelope rest with
    | none => some e
    | some m => if keyLe e.key m.key then some e else some m

/-- Modelled from the spec: the store's descending key scan with limit 1 —
the envelope with the largest key. -/
def maxEnvelope : List Envelope → Option Envelope
  | [] => none
  | e :: rest =>
    match maxEnvelope rest with
    | none => some e
    | some m => if keyLe m.key e.key then some e else some m

/-- Modelled from the spec: deleting a key from the store (removes the
first envelope carrying that key). -/
def eraseKey : List Envelope → (Nat × Nat) → List Envelope
  | [], _ => []
  | e :: rest, k => if e.key = k then rest else e :: eraseKey rest k

/-- Modelled from the spec: `tryPop` — non-blocking; if `count == 0` it
returns no value and leaves the state untouched, otherwise it scans for the
envelope with the smallest key, unwraps it, deletes that key from the
store, decrements `count` by one and `size` by the entry's byte size. -/
def tryPop (st : QueueState) : Option BSONObj × QueueState :=
  if st.count = 0 then (none, st)
  else
    match minEnvelope st.store with
    | none => (none, st)
    | some env =>
      (some env.entry,
       { st with store := eraseKey st.store env.key,
                 count := st.count - 1,
                 size := st.size - objSize env.entry })

/-- Modelled from the spec: `peek` — the same scan-for-smallest-key as
`tryPop` but without deleting anything; returns no value if empty. -/
def peek (st : QueueState) : Option BSONObj × QueueState :=
  if st.count = 0 then (none, st)
  else ((minEnvelope st.store).map fun env => env.entry, st)

/-- Modelled from the spec: `blockingPop` waits until `count > 0` and then
performs the same removal as `tryPop`; `none` stands for a wait that never
completes (empty queue, interruption handled by the caller). -/
def blockingPop (st : QueueState) : Option (BSONObj × QueueState) :=
  match tryPop st with
  | (some v, st') => some (v, st')
  | (none, _) => none

/-- Modelled from the spec: `lastObjectPushed` — the envelope with the
largest key, unwrapped, without removing it; absent on an empty queue.  It
is a `const` member: it cannot mutate the state, which the return type
records. -/
def lastObjectPushed (st : QueueState) : Option BSONObj :=
  (maxEnvelope st.store).map fun env => env.entry

/-- `getCount`: O(1) read of the in-memory counter. -/
def getCount (st : QueueState) : Nat := st.count

/-- `getSize`: O(1) read of the in-memory counter. -/
def getSize (st : QueueState) : Nat := st.size

/-- Modelled from the spec: the operations whose completed effects the
counter-coherence invariant ranges over (startup, the push variants,
`tryPop`, `blockingPop`, `clear`).  A push whose insert does not take
effect leaves the counters unchanged (section 7). -/
inductive QueueOp : Type where
  | opStartup
  | opPush (doc : BSONObj)
  | opPushEvenIfFull (doc : BSONObj)
  | opPushAllNonBlocking (docs : List BSONObj)
  | opTryPop
  | opBlockingPop
  | opClear

/-- Modelled from the spec: apply one completed operation to the state. -/
def applyOp (st : QueueState) : QueueOp → QueueState
  | QueueOp.opStartup => startup st
  | QueueOp.opPush d => (push st d).getD st
  | QueueOp.opPushEvenIfFull d => (pushEvenIfFull st d).getD st
  | QueueOp.opPushAllNonBlocking ds =>
      (pushAllNonBlocking st ds).map Prod.snd |>.getD st
  | QueueOp.opTryPop => (tryPop st).2
  | QueueOp.opBlockingPop =>
      match blockingPop st with
      | some (_, st') => st'
      | none => st
  | QueueOp.opClear => clear st

/-- Apply a sequence of completed operations. -/
def applyOps (st : QueueState) (ops : List QueueOp) : QueueState :=
  ops.foldl applyOp st

/-- The coherence invariant between the counters and the durable store:
`count` is the number of envelopes, `size` the byte sum of the embedded
entries, and every stored envelope's key is its entry's `ts` field. -/
def Coherent (st : QueueState) : Prop :=
  st.count = st.store.length ∧
  st.size = (st.store.map fun e => objSize e.entry).sum ∧
  ∀ e ∈ st.store, tsKey e.entry = some e.key

/-- Popping everything: iterate `tryPop` until it yields nothing (the
counter bounds the iteration). -/
def drainAux : Nat → QueueState → List BSONObj
  | 0, _ => []
  | n + 1, st =>
    match tryPop st with
    | (some v, st') => v :: drainAux n st'
    | (none, _) => []

/-- The sequence of entries observed by repeatedly popping the queue. -/
def drain (st : QueueState) : List BSONObj := drainAux st.count st

/-- Entries compared by their timestamp keys (used to state that pops come
out in ascending key order). -/
def docLe (a b : BSONObj) : Prop :=
  match tsKey a, tsKey b with
  | some ka, some kb => keyLe ka kb = true
  | _, _ => False

theorem keyLe_iff (a b : Nat × Nat) :
    keyLe a b = true ↔ (a.1 < b.1 ∨ (a.1 = b.1 ∧ a.2 ≤ b.2)) := by
  unfold keyLe
  simp [Nat.blt_eq, Nat.ble_eq]

theorem keyLe_refl (a : Nat × Nat) : keyLe a a = true := by
  rw [keyLe_iff]
  omega

theorem keyLe_trans (a b c : Nat × Nat) (hab : keyLe a b = true)
    (hbc : keyLe b c = true) : keyLe a c = true := by
  rw [keyLe_iff] at hab hbc ⊢
  omega

theorem keyLe_of_not_keyLe (a b : Nat × Nat) (h : ¬keyLe a b = true) :
    keyLe b a = true := by
  rw [keyLe_iff] at h ⊢
  omega

theorem ne_of_not_keyLe (a b : Nat × Nat) (h : ¬keyLe a b = true) :
    b ≠ a := by
  intro he
  exact h (he ▸ keyLe_refl b)

theorem minEnvelope_eq_none {l : List Envelope}
    (h : minEnvelope l = none) : l = [] := by
  cases l with
  | nil => rfl
  | cons e rest =>
    exfalso
    unfold minEnvelope at h
    cases hm : minEnvelope rest with
    | none =>
      simp only [hm] at h
      exact Option.noConfusion h
    | some m =>
      simp only [hm] at h
      by_cases hk : keyLe e.key m.key = true
      · rw [if_pos hk] at h; exact Option.noConfusion h
      · rw [if_neg hk] at h; exact Option.noConfusion h

theorem minEnvelope_mem {l : List Envelope} :
    ∀ {env : Envelope}, minEnvelope l = some env → env ∈ l := by
  induction l with
  | nil => intro env h; exact Option.noConfusion h
  | cons e rest ih =>
    intro env h
    unfold minEnvelope at h
    cases hm : minEnvelope rest with
    | none =>
      simp only [hm, Option.some.injEq] at h
      subst h
      exact List.mem_cons_self e rest
    | some m =>
      simp only [hm] at h
      by_cases hk : keyLe e.key m.key = true
      · rw [if_pos hk] at h
        simp only [Option.some.injEq] at h
        subst h
        exact List.mem_cons_self e rest
      · rw [if_neg hk] at h
        simp only [Option.some.injEq] at h
        subst h
        exact List.mem_cons_of_mem e (ih hm)

theorem minEnvelope_le {l : List Envelope} :
    ∀ {env : Envelope}, minEnvelope l = some env →
      ∀ x ∈ l, keyLe env.key x.key = true := by
  induction l with
  | nil => intro env h; exact Option.noConfusion h
  | cons e rest ih =>
    intro env h
    unfold minEnvelope at h
    cases hm : minEnvelope rest with
    | none =>
      simp only [hm, Option.some.injEq] at h
      subst h
      intro x hx
      rcases List.mem_cons.mp hx with hx | hx
      · rw [hx]; exact keyLe_refl e.key
      · rw [minEnvelope_eq_none hm] at hx
        exact absurd hx (List.not_mem_nil x)
    | some m =>
      simp only [hm] at h
      by_cases hk : keyLe e.key m.key = true
      · rw [if_pos hk] at h
        simp only [Option.some.injEq] at h
        subst h
        intro x hx
        rcases List.mem_cons.mp hx with hx | hx
        · rw [hx]; exact keyLe_refl e.key
        · exact keyLe_trans e.key m.key x.key hk (ih hm x hx)
      · rw [if_neg hk] at h
        simp only [Option.some.injEq] at h
        subst h
        intro x hx
        rcases List.mem_cons.mp hx with hx | hx
        · rw [hx]
          exact keyLe_of_not_keyLe e.key m.key hk
        · exact ih hm x hx

theorem minEnvelope_first {l : List Envelope} :
    ∀ {env : Envelope}, minEnvelope l = some env →
      ∃ l1 l2, l = l1 ++ env :: l2 ∧ ∀ x ∈ l1, x.key ≠ env.key := by
  induction l with
  | nil => intro env h; exact Option.noConfusion h
  | cons e rest ih =>
    intro env h
    unfold minEnvelope at h
    cases hm : minEnvelope rest with
    | none =>
      simp only [hm, Option.some.injEq] at h
      subst h
      refine ⟨[], rest, rfl, ?_⟩
      intro x hx
      exact absurd hx (List.not_mem_nil x)
    | some m =>
      simp only [hm] at h
      by_cases hk : keyLe e.key m.key = true
      · rw [if_pos hk] at h
        simp only [Option.some.injEq] at h
        subst h
        refine ⟨[], rest, rfl, ?_⟩
        intro x hx
        exact absurd hx (List.not_mem_nil x)
      · rw [if_neg hk] at h
        simp only [Option.some.injEq] at h
        subst h
        obtain ⟨l1, l2, hrest, hne⟩ := ih hm
        refine ⟨e :: l1, l2, by rw [List.cons_append, hrest], ?_⟩
        intro x hx
        rcases List.mem_cons.mp hx with hx | hx
        · rw [hx]
          intro he
          exact ne_of_not_keyLe e.key m.key hk he.symm
        · exact hne x hx

theorem eraseKey_append (l1 l2 : List Envelope) (env : Envelope)
    (hne : ∀ x ∈ l1, x.key ≠ env.key) :
    eraseKey (l1 ++ env :: l2) env.key = l1 ++ l2 := by
  induction l1 with
  | nil => simp [eraseKey]
  | cons a l1 ih =>
    have ha : a.key ≠ env.key := hne a (List.mem_cons_self a l1)
    have ih2 : eraseKey (l1 ++ env :: l2) env.key = l1 ++ l2 :=
      ih fun x hx => hne x (List.mem_cons_of_mem a hx)
    simp only [List.cons_append, eraseKey, if_neg ha, List.append_eq, ih2]

theorem tryPop_of_count_zero (st : QueueState) (h : st.count = 0) :
    tryPop st = (none, st) := by
  unfold tryPop
  rw [if_pos h]

theorem tryPop_spec_pos (st : QueueState) (hc : st.count = st.store.length)
    (hpos : 0 < st.count) :
    ∃ env l1 l2,
      minEnvelope st.store = some env ∧
      st.store = l1 ++ env :: l2 ∧
      (∀ x ∈ l1, x.key ≠ env.key) ∧
      tryPop st =
        (some env.entry,
         { st with store := l1 ++ l2, count := st.count - 1,
                   size := st.size - objSize env.entry }) := by
  cases hm : minEnvelope st.store with
  | none =>
    exfalso
    rw [minEnvelope_eq_none hm] at hc
    simp at hc
    omega
  | some env =>
    obtain ⟨l1, l2, hstore, hne⟩ := minEnvelope_first hm
    refine ⟨env, l1, l2, rfl, hstore, hne, ?_⟩
    have herase : eraseKey st.store env.key = l1 ++ l2 := by
      rw [hstore]
      exact eraseKey_append l1 l2 env hne
    unfold tryPop
    rw [if_neg (by omega)]
    simp only [hm, herase]

theorem peek_fst_eq_tryPop_fst (st : QueueState) :
    (peek st).1 = (tryPop st).1 := by
  unfold peek tryPop
  by_cases h : st.count = 0
  · rw [if_pos h, if_pos h]
  · rw [if_neg h, if_neg h]
    cases minEnvelope st.store with
    | none => rfl
    | some env => rfl

theorem mkEnvelopes_spec :
    ∀ {docs : List BSONObj} {envs : List Envelope},
      mkEnvelopes docs = some envs →
      (envs.map fun e => e.entry) = docs ∧
      ∀ e ∈ envs, tsKey e.entry = some e.key := by
  intro docs
  induction docs with
  | nil =>
    intro envs h
    cases h
    exact ⟨rfl, by intro e he; exact absurd he (List.not_mem_nil e)⟩
  | cons d rest ih =>
    intro envs h
    unfold mkEnvelopes at h
    cases hd : mkEnvelope d with
    | none => rw [hd] at h; exact Option.noConfusion h
    | some e =>
      cases hr : mkEnvelopes rest with
      | none => rw [hd, hr] at h; exact Option.noConfusion h
      | some es =>
        rw [hd, hr] at h
        cases h
        obtain ⟨hmap, hwf⟩ := ih hr
        unfold mkEnvelope at hd
        cases ht : tsKey d with
        | none => rw [ht] at hd; exact Option.noConfusion hd
        | some k =>
          rw [ht] at hd
          simp only [Option.map_some', Option.some.injEq] at hd
          constructor
          · simp only [List.map_cons, hmap, ← hd]
          · intro x hx
            rcases List.mem_cons.mp hx with hx | hx
            · rw [hx, ← hd]
              exact ht
            · exact hwf x hx

theorem coherent_startup (st : QueueState) : Coherent (startup st) := by
  refine ⟨rfl, rfl, ?_⟩
  intro e he
  exact absurd he (List.not_mem_nil e)

theorem coherent_clear (st : QueueState) : Coherent (clear st) := by
  refine ⟨rfl, rfl, ?_⟩
  intro e he
  exact absurd he (List.not_mem_nil e)

theorem coherent_insertBatch (st : QueueState) (docs : List BSONObj)
    (h : Coherent st) : Coherent ((insertBatch st docs).getD st) := by
  cases he : mkEnvelopes docs with
  | none => simp [insertBatch, he, h]
  | some envs =>
    obtain ⟨hmap, hwf⟩ := mkEnvelopes_spec he
    obtain ⟨hcount, hsize, hkeys⟩ := h
    simp only [insertBatch, he, Option.map_some', Option.getD_some]
    refine ⟨?_, ?_, ?_⟩
    · simp [hcount]
    · simp [hsize]
    · intro e hmem
      rcases List.mem_append.mp hmem with hmem | hmem
      · exact hkeys e hmem
      · exact hwf e hmem

theorem coherent_tryPop (st : QueueState) (h : Coherent st) :
    Coherent (tryPop st).2 := by
  by_cases hz : st.count = 0
  · rw [tryPop_of_count_zero st hz]
    exact h
  · obtain ⟨hcount, hsize, hkeys⟩ := h
    obtain ⟨env, l1, l2, hmin, hstore, hne, htp⟩ :=
      tryPop_spec_pos st hcount (by omega)
    rw [htp]
    refine ⟨?_, ?_, ?_⟩
    · show st.count - 1 = (l1 ++ l2).length
      have hlen : st.store.length = l1.length + (l2.length + 1) := by
        rw [hstore]; simp
      rw [List.length_append]
      omega
    · show st.size - objSize env.entry =
        ((l1 ++ l2).map fun e => objSize e.entry).sum
      have hs : st.size =
          (l1.map fun e => objSize e.entry).sum + objSize env.entry +
          (l2.map fun e => objSize e.entry).sum := by
        rw [hsize, hstore, List.map_append, List.sum_append, List.map_cons,
            List.sum_cons]
        omega
      rw [List.map_append, List.sum_append]
      omega
    · intro e hmem
      apply hkeys
      rw [hstore]
      rcases List.mem_append.mp hmem with hmem | hmem
      · exact List.mem_append.mpr (Or.inl hmem)
      · exact List.mem_append.mpr (Or.inr (List.mem_cons_of_mem env hmem))

theorem coherent_applyOp (st : QueueState) (op : QueueOp)
    (h : Coherent st) : Coherent (applyOp st op) := by
  cases op with
  | opStartup => exact coherent_startup st
  | opPush d => exact coherent_insertBatch st [d] h
  | opPushEvenIfFull d => exact coherent_insertBatch st [d] h
  | opPushAllNonBlocking ds =>
    have heq : applyOp st (QueueOp.opPushAllNonBlocking ds) =
        (insertBatch st ds).getD st := by
      simp only [applyOp, pushAllNonBlocking]
      cases insertBatch st ds with
      | none => rfl
      | some st' => rfl
    rw [heq]
    exact coherent_insertBatch st ds h
  | opTryPop => exact coherent_tryPop st h
  | opBlockingPop =>
    have h2 : Coherent (tryPop st).2 := coherent_tryPop st h
    rcases htp : tryPop st with ⟨v, st2⟩
    rw [htp] at h2
    cases v with
    | none =>
      have heq : applyOp st QueueOp.opBlockingPop = st := by
        simp only [applyOp, blockingPop, htp]
      rw [heq]
      exact h
    | some w =>
      have heq : applyOp st QueueOp.opBlockingPop = st2 := by
        simp only [applyOp, blockingPop, htp]
      rw [heq]
      exact h2
  | opClear => exact coherent_clear st

theorem coherent_applyOps (st : QueueState) (ops : List QueueOp)
    (h : Coherent st) : Coherent (applyOps st ops) := by
  induction ops generalizing st with
  | nil => exact h
  | cons op ops ih =>
    exact ih (applyOp st op) (coherent_applyOp st op h)

theorem maxEnvelope_eq_none {l : List Envelope}
    (h : maxEnvelope l = none) : l = [] := by
  cases l with
  | nil => rfl
  | cons e rest =>
    exfalso
    unfold maxEnvelope at h
    cases hm : maxEnvelope rest with
    | none =>
      simp only [hm] at h
      exact Option.noConfusion h
    | some m =>
      simp only [hm] at h
      by_cases hk : keyLe m.key e.key = true
      · rw [if_pos hk] at h; exact Option.noConfusion h
      · rw [if_neg hk] at h; exact Option.noConfusion h

theorem maxEnvelope_mem {l : List Envelope} :
    ∀ {env : Envelope}, maxEnvelope l = some env → env ∈ l := by
  induction l with
  | nil => intro env h; exact Option.noConfusion h
  | cons e rest ih =>
    intro env h
    unfold maxEnvelope at h
    cases hm : maxEnvelope rest with
    | none =>
      simp only [hm, Option.some.injEq] at h
      subst h
      exact List.mem_cons_self e rest
    | some m =>
      simp only [hm] at h
      by_cases hk : keyLe m.key e.key = true
      · rw [if_pos hk] at h
        simp only [Option.some.injEq] at h
        subst h
        exact List.mem_cons_self e rest
      · rw [if_neg hk] at h
        simp only [Option.some.injEq] at h
        subst h
        exact List.mem_cons_of_mem e (ih hm)

theorem maxEnvelope_ge {l : List Envelope} :
    ∀ {env : Envelope}, maxEnvelope l = some env →
      ∀ x ∈ l, keyLe x.key env.key = true := by
  induction l with
  | nil => intro env h; exact Option.noConfusion h
  | cons e rest ih =>
    intro env h
    unfold maxEnvelope at h
    cases hm : maxEnvelope rest with
    | none =>
      simp only [hm, Option.some.injEq] at h
      subst h
      intro x hx
      rcases List.mem_cons.mp hx with hx | hx
      · rw [hx]; exact keyLe_refl e.key
      · rw [maxEnvelope_eq_none hm] at hx
        exact absurd hx (List.not_mem_nil x)
    | some m =>
      simp only [hm] at h
      by_cases hk : keyLe m.key e.key = true
      · rw [if_pos hk] at h
        simp only [Option.some.injEq] at h
        subst h
        intro x hx
        rcases List.mem_cons.mp hx with hx | hx
        · rw [hx]; exact keyLe_refl e.key
        · exact keyLe_trans x.key m.key e.key (ih hm x hx) hk
      · rw [if_neg hk] at h
        simp only [Option.some.injEq] at h
        subst h
        intro x hx
        rcases List.mem_cons.mp hx with hx | hx
        · rw [hx]
          exact keyLe_of_not_keyLe m.key e.key hk
        · exact ih hm x hx

theorem drainAux_spec :
    ∀ (n : Nat) (st : QueueState), st.count = n → Coherent st →
      (drainAux n st).Perm (st.store.map fun e => e.entry) ∧
      (drainAux n st).Pairwise docLe := by
  intro n
  induction n with
  | zero =>
    intro st hn hc
    have hnil : st.store = [] := by
      have h1 := hc.1
      exact List.eq_nil_of_length_eq_zero (by omega)
    rw [hnil]
    exact ⟨List.Perm.refl [], List.Pairwise.nil⟩
  | succ n ih =>
    intro st hn hc
    obtain ⟨hcount, hsize, hkeys⟩ := hc
    have hpos : 0 < st.count := by omega
    obtain ⟨env, l1, l2, hmin, hstore, hne, htp⟩ :=
      tryPop_spec_pos st hcount hpos
    set st2 : QueueState :=
      { st with store := l1 ++ l2, count := st.count - 1,
                size := st.size - objSize env.entry } with hst2
    have hc2 : Coherent (tryPop st).2 := coherent_tryPop st ⟨hcount, hsize, hkeys⟩
    rw [htp] at hc2
    have hcount2 : st2.count = n := by
      rw [hst2]
      show st.count - 1 = n
      omega
    have hst2store : st2.store = l1 ++ l2 := rfl
    have hd : drainAux (n + 1) st = env.entry :: drainAux n st2 := by
      simp only [drainAux, htp]
    obtain ⟨hperm, hpw⟩ := ih st2 hcount2 hc2
    constructor
    · rw [hd, hstore, List.map_append, List.map_cons]
      refine List.Perm.trans (List.Perm.cons env.entry ?_) List.perm_middle.symm
      rw [hst2store, List.map_append] at hperm
      exact hperm
    · rw [hd]
      refine List.Pairwise.cons ?_ hpw
      intro b hb
      have hb2 : b ∈ st2.store.map fun e => e.entry := hperm.mem_iff.mp hb
      obtain ⟨x, hx, hbx⟩ := List.mem_map.mp hb2
      have hxstore : x ∈ st.store := by
        rw [hst2store] at hx
        rw [hstore]
        rcases List.mem_append.mp hx with hx | hx
        · exact List.mem_append.mpr (Or.inl hx)
        · exact List.mem_append.mpr (Or.inr (List.mem_cons_of_mem env hx))
      have hk : keyLe env.key x.key = true := minEnvelope_le hmin x hxstore
      have h1 : tsKey env.entry = some env.key :=
        hkeys env (minEnvelope_mem hmin)
      have h2 : tsKey x.entry = some x.key := hkeys x hxstore
      rw [← hbx]
      simp only [docLe, h1, h2]
      exact hk

theorem drain_perm_sorted (st : QueueState) (h : Coherent st) :
    (drain st).Perm (st.store.map fun e => e.entry) ∧
    (drain st).Pairwise docLe :=
  drainAux_spec st.count st rfl h

/-- C1: pushing any batch of entries in any order, every subsequent pop
observes the entries in ascending timestamp order — the popped sequence is a
permutation of the batch that is pairwise ordered by timestamp key — and
every peek returns exactly what the next `tryPop` would return (the entry
with the smallest timestamp still in the queue). -/
theorem pushAll_pops_in_timestamp_order (m : Nat) (batch : List BSONObj)
    (b : Bool) (st : QueueState)
    (h : pushAllNonBlocking (startup (initQueue m)) batch = some (b, st)) :
    (drain st).Perm batch ∧ (drain st).Pairwise docLe ∧
    ∀ st' : QueueState, (peek st').1 = (tryPop st').1 := by
  unfold pushAllNonBlocking at h
  cases hi : insertBatch (startup (initQueue m)) batch with
  | none => rw [hi] at h; exact Option.noConfusion h
  | some st1 =>
    rw [hi] at h
    simp only [Option.map_some', Option.some.injEq, Prod.mk.injEq] at h
    obtain ⟨hb, hst⟩ := h
    subst hst
    unfold insertBatch at hi
    cases he : mkEnvelopes batch with
    | none => rw [he] at hi; exact Option.noConfusion hi
    | some envs =>
      rw [he] at hi
      simp only [Option.map_some', Option.some.injEq] at hi
      obtain ⟨hmap, hwf⟩ := mkEnvelopes_spec he
      have hcoh : Coherent st1 := by
        rw [← hi]
        refine ⟨by simp [startup, initQueue], by simp [startup, initQueue], ?_⟩
        intro e hmem
        simp only [startup, initQueue, List.nil_append] at hmem
        exact hwf e hmem
      have hstore : st1.store = envs := by
        rw [← hi]
        simp [startup, initQueue]
      obtain ⟨hperm, hpw⟩ := drain_perm_sorted st1 hcoh
      refine ⟨?_, hpw, fun st' => peek_fst_eq_tryPop_fst st'⟩
      rw [hstore] at hperm
      rw [← hmap]
      exact hperm

/-- C4: the `tryPop` contract — on `count = 0` it returns nothing and
leaves the state untouched; otherwise it returns the unwrapped entry of the
smallest-key envelope, deletes that key from the store, and decrements
`count` by one and `size` by that entry's byte size. -/
theorem tryPop_contract (st : QueueState) (h : Coherent st) :
    (st.count = 0 → tryPop st = (none, st)) ∧
    (0 < st.count →
      ∃ env, minEnvelope st.store = some env ∧ env ∈ st.store ∧
        (∀ x ∈ st.store, keyLe env.key x.key = true) ∧
        tryPop st =
          (some env.entry,
           { st with store := eraseKey st.store env.key,
                     count := st.count - 1,
                     size := st.size - objSize env.entry })) := by
  constructor
  · exact tryPop_of_count_zero st
  · intro hpos
    obtain ⟨env, l1, l2, hmin, hstore, hne, htp⟩ :=
      tryPop_spec_pos st h.1 hpos
    refine ⟨env, hmin, minEnvelope_mem hmin, minEnvelope_le hmin, ?_⟩
    have herase : eraseKey st.store env.key = l1 ++ l2 := by
      rw [hstore]
      exact eraseKey_append l1 l2 env hne
    rw [htp, herase]

/-- C5: `peek` is non-mutating — it returns the same smallest-key entry
that `tryPop` would, leaves the state (hence `getCount` and `getSize`)
unchanged, and returns nothing on an empty queue. -/
theorem peek_contract (st : QueueState) :
    (peek st).2 = st ∧ (peek st).1 = (tryPop st).1 ∧
    getCount (peek st).2 = getCount st ∧ getSize (peek st).2 = getSize st ∧
    (st.count = 0 → (peek st).1 = none) := by
  have h2 : (peek st).2 = st := by
    unfold peek
    by_cases h : st.count = 0
    · rw [if_pos h]
    · rw [if_neg h]
  refine ⟨h2, peek_fst_eq_tryPop_fst st, by rw [h2], by rw [h2], ?_⟩
  intro h0
  unfold peek
  rw [if_pos h0]

/-- C6: `lastObjectPushed` returns the unwrapped entry with the largest
timestamp key on a non-empty queue, and nothing on an empty queue.  It is a
pure function of the state (`const` in the header), so it removes nothing
and changes neither `count` nor `size`. -/
theorem lastObjectPushed_contract (st : QueueState) (h : Coherent st) :
    (st.count = 0 → lastObjectPushed st = none) ∧
    (0 < st.count →
      ∃ env, maxEnvelope st.store = some env ∧ env ∈ st.store ∧
        (∀ x ∈ st.store, keyLe x.key env.key = true) ∧
        lastObjectPushed st = some env.entry ∧
        tsKey env.entry = some env.key) := by
  constructor
  · intro h0
    have hnil : st.store = [] := by
      have hlen := h.1
      rw [h0] at hlen
      exact List.eq_nil_of_length_eq_zero hlen.symm
    unfold lastObjectPushed
    rw [hnil]
    rfl
  · intro hpos
    cases hm : maxEnvelope st.store with
    | none =>
      exfalso
      have hlen := h.1
      rw [maxEnvelope_eq_none hm] at hlen
      simp at hlen
      omega
    | some env =>
      refine ⟨env, rfl, maxEnvelope_mem hm, maxEnvelope_ge hm, ?_,
        h.2.2 env (maxEnvelope_mem hm)⟩
      unfold lastObjectPushed
      rw [hm]
      rfl

/-- C7: the backing collection does not exist on the freshly constructed
queue, exists after `startup`, and no longer exists after `shutdown`. -/
theorem lifecycle_collection_existence (m : Nat) (st1 st2 : QueueState) :
    (initQueue m).collectionExists = false ∧
    (startup st1).collectionExists = true ∧
    (shutdown st2).collectionExists = false :=
  ⟨rfl, rfl, rfl⟩

/-- C8: `clear` on a started queue deletes every envelope, resets
`getCount` and `getSize` to zero, preserves the backing collection, makes a
subsequent `peek` or `tryPop` return nothing, and yields exactly the state
of a freshly started empty queue with the same capacity. -/
theorem clear_resets_to_fresh_state (st : QueueState)
    (h : st.collectionExists = true) :
    (clear st).store = [] ∧ getCount (clear st) = 0 ∧
    getSize (clear st) = 0 ∧ (clear st).collectionExists = true ∧
    (peek (clear st)).1 = none ∧ tryPop (clear st) = (none, clear st) ∧
    clear st = startup (initQueue st.maxSize) := by
  refine ⟨rfl, rfl, rfl, h, ?_, tryPop_of_count_zero (clear st) rfl, ?_⟩
  · unfold peek
    rw [if_pos (show (clear st).count = 0 from rfl)]
  · cases st
    simp_all [clear, startup, initQueue]

/-- C9: after any sequence of completed queue operations following
`startup`, the in-memory `count` equals the number of envelopes in the
backing store and `size` equals the sum of the byte sizes of their embedded
entries. -/
theorem counters_coherent_with_store (m : Nat) (ops : List QueueOp) :
    getCount (applyOps (startup (initQueue m)) ops) =
      (applyOps (startup (initQueue m)) ops).store.length ∧
    getSize (applyOps (startup (initQueue m)) ops) =
      ((applyOps (startup (initQueue m)) ops).store.map
        fun e => objSize e.entry).sum := by
  have h := coherent_applyOps (startup (initQueue m)) ops
    (coherent_startup (initQueue m))
  exact ⟨h.1, h.2.1⟩

/-- The batch with timestamps [2, 1, 3] from the ordering unit test. -/
def demoBatch : List BSONObj :=
  [makeOplogEntry 2, makeOplogEntry 1, makeOplogEntry 3]

/-- The queue after startup and a batch push of [2, 1, 3]. -/
def demoQueue : QueueState :=
  ((pushAllNonBlocking (startup (initQueue 256)) demoBatch).getD
    (true, initQueue 256)).2

/-- Witness for C1: the [2, 1, 3] batch drains as [1, 2, 3]. -/
theorem pushAll_pops_in_timestamp_order_witness :
    (drain demoQueue).Perm demoBatch ∧ (drain demoQueue).Pairwise docLe ∧
    ∀ st' : QueueState, (peek st').1 = (tryPop st').1 :=
  pushAll_pops_in_timestamp_order 256 demoBatch true demoQueue (by rfl)

/-- Witness for C4 on the concrete three-entry queue. -/
theorem tryPop_contract_witness :
    (demoQueue.count = 0 → tryPop demoQueue = (none, demoQueue)) ∧
    (0 < demoQueue.count →
      ∃ env, minEnvelope demoQueue.store = some env ∧
        env ∈ demoQueue.store ∧
        (∀ x ∈ demoQueue.store, keyLe env.key x.key = true) ∧
        tryPop demoQueue =
          (some env.entry,
           { demoQueue with
               store := eraseKey demoQueue.store env.key,
               count := demoQueue.count - 1,
               size := demoQueue.size - objSize env.entry })) :=
  tryPop_contract demoQueue ⟨by rfl, by rfl, by decide⟩

/-- Witness for C5 on the concrete three-entry queue. -/
theorem peek_contract_witness :
    (peek demoQueue).2 = demoQueue ∧
    (peek demoQueue).1 = (tryPop demoQueue).1 ∧
    getCount (peek demoQueue).2 = getCount demoQueue ∧
    getSize (peek demoQueue).2 = getSize demoQueue ∧
    (demoQueue.count = 0 → (peek demoQueue).1 = none) :=
  peek_contract demoQueue

/-- The batch with timestamps [1, 3, 2] from the lastObjectPushed test. -/
def demoBatch2 : List BSONObj :=
  [makeOplogEntry 1, makeOplogEntry 3, makeOplogEntry 2]

/-- The queue after startup and a batch push of [1, 3, 2]. -/
def demoQueue2 : QueueState :=
  ((pushAllNonBlocking (startup (initQueue 256)) demoBatch2).getD
    (true, initQueue 256)).2

/-- Witness for C6 on the [1, 3, 2] queue. -/
theorem lastObjectPushed_contract_witness :
    (demoQueue2.count = 0 → lastObjectPushed demoQueue2 = none) ∧
    (0 < demoQueue2.count →
      ∃ env, maxEnvelope demoQueue2.store = some env ∧
        env ∈ demoQueue2.store ∧
        (∀ x ∈ demoQueue2.store, keyLe x.key env.key = true) ∧
        lastObjectPushed demoQueue2 = some env.entry ∧
        tsKey env.entry = some env.key) :=
  lastObjectPushed_contract demoQueue2 ⟨by rfl, by rfl, by decide⟩

/-- Witness for C7 at capacity 7. -/
theorem lifecycle_collection_existence_witness :
    (initQueue 7).collectionExists = false ∧
    (startup (initQueue 7)).collectionExists = true ∧
    (shutdown (startup (initQueue 7))).collectionExists = false :=
  lifecycle_collection_existence 7 (initQueue 7) (startup (initQueue 7))

/-- Witness for C8 on the concrete three-entry queue. -/
theorem clear_resets_to_fresh_state_witness :
    (clear demoQueue).store = [] ∧ getCount (clear demoQueue) = 0 ∧
    getSize (clear demoQueue) = 0 ∧
    (clear demoQueue).collectionExists = true ∧
    (peek (clear demoQueue)).1 = none ∧
    tryPop (clear demoQueue) = (none, clear demoQueue) ∧
    clear demoQueue = startup (initQueue demoQueue.maxSize) :=
  clear_resets_to_fresh_state demoQueue (by rfl)

/-- A sample operation sequence exercising pushes, pops and clear. -/
def demoOps : List QueueOp :=
  [QueueOp.opPush (makeOplogEntry 1), QueueOp.opTryPop,
   QueueOp.opPushAllNonBlocking demoBatch, QueueOp.opBlockingPop,
   QueueOp.opClear, QueueOp.opPushEvenIfFull (makeOplogEntry 4)]

/-- Witness for C9 on a concrete operation sequence. -/
theorem counters_coherent_with_store_witness :
    getCount (applyOps (startup (initQueue 64)) demoOps) =
      (applyOps (startup (initQueue 64)) demoOps).store.length ∧
    getSize (applyOps (startup (initQueue 64)) demoOps) =
      ((applyOps (startup (initQueue 64)) demoOps).store.map
        fun e => objSize e.entry).sum :=
  counters_coherent_with_store 64 demoOps

end OplogBufferModel

namespace MetadataManagerModel

/-- Modelled from the spec: the MetadataManager method bodies are missing
from this tree; the state follows the documented contract of
`metadata_manager.h`.  Trackers are identified by allocation order
(`nextId` is the next fresh identifier); `active` is the identifier held by
`_activeMetadataTracker`, `inUse` the identifiers on the `_metadataInUse`
list, `usage` each tracker's `usageCounter`, and `scoped` the multiset of
tracker identifiers referenced by live `ScopedCollectionMetadata`
objects. -/
structure MMState : Type where
  nextId : Nat
  active : Option Nat
  inUse : List Nat
  usage : Nat → Nat
  scopedRefs : List Nat

/-- Modelled from the spec: a fresh manager with no active metadata. -/
def initMM : MMState :=
  { nextId := 0, active := none, inUse := [], usage := fun _ => 0,
    scopedRefs := [] }

/-- Modelled from the spec: the `_metadataInUse` list after
`setActiveMetadata` — the previously active tracker is appended exactly
when it has current users. -/
def retiredInUse (st : MMState) : List Nat :=
  match st.active with
  | some a => if 0 < st.usage a then a :: st.inUse else st.inUse
  | none => st.inUse

/-- Modelled from the spec: `setActiveMetadata` — changes the active
metadata to a fresh tracker (its `usageCounter` initialized to zero) and,
if there are current users of the previous active metadata, puts it in the
`_metadataInUse` list (otherwise the superseded tracker is destroyed). -/
def setActiveMetadata (st : MMState) : MMState :=
  { nextId := st.nextId + 1,
    active := some st.nextId,
    inUse := retiredInUse st,
    usage := fun t => if t = st.nextId then 0 else st.usage t,
    scopedRefs := st.scopedRefs }

/-- Modelled from the spec: `getActiveMetadata` — increments the usage
counter of the active tracker and hands out a `ScopedCollectionMetadata`
referencing it (a no-op model when no active metadata is set, which the
header declares a precondition violation). -/
def getActiveMetadata (st : MMState) : MMState :=
  match st.active with
  | some a =>
    { st with
        usage := fun t => if t = a then st.usage a + 1 else st.usage t,
        scopedRefs := a :: st.scopedRefs }
  | none => st

/-- Modelled from the spec: `_removeMetadata` — removes the tracker from
the `_metadataInUse` list (if it is there). -/
def removeMetadata (st : MMState) (t : Nat) : MMState :=
  { st with inUse := st.inUse.erase t }

/-- Modelled from the spec: the `ScopedCollectionMetadata` destructor —
decrements the tracker's usage counter and, when the counter reaches zero,
calls `_removeMetadata` on it (a no-op model when no live scoped object
references the tracker). -/
def destroyScoped (st : MMState) (t : Nat) : MMState :=
  if t ∈ st.scopedRefs then
    if st.usage t - 1 = 0 then
      removeMetadata
        { st with
            usage := fun s => if s = t then st.usage t - 1 else st.usage s,
            scopedRefs := st.scopedRefs.erase t } t
    else
      { st with
          usage := fun s => if s = t then st.usage t - 1 else st.usage s,
          scopedRefs := st.scopedRefs.erase t }
  else st

/-- The manager operations a client can perform. -/
inductive MMOp : Type where
  | opSetActive
  | opGetActive
  | opDestroyScoped (t : Nat)

/-- Apply one manager operation. -/
def applyMMOp (st : MMState) : MMOp → MMState
  | MMOp.opSetActive => setActiveMetadata st
  | MMOp.opGetActive => getActiveMetadata st
  | MMOp.opDestroyScoped t => destroyScoped st t

/-- Apply a sequence of manager operations. -/
def applyMMOps (st : MMState) (ops : List MMOp) : MMState :=
  ops.foldl applyMMOp st

/-- The reference-counting invariant of the manager, together with the
bookkeeping facts needed to maintain it: every tracker's usage counter
equals the number of live scoped objects referencing it; every tracker on
the in-use list is referenced; the in-use list has no duplicates; all ids
at or above nextId are untouched; the active tracker is allocated and not
on the in-use list. -/
def MMInv (st : MMState) : Prop :=
  (∀ t, st.usage t = st.scopedRefs.count t) ∧
  (∀ t ∈ st.inUse, 0 < st.usage t) ∧
  st.inUse.Nodup ∧
  (∀ t, st.nextId ≤ t → st.usage t = 0 ∧ t ∉ st.scopedRefs ∧ t ∉ st.inUse) ∧
  (∀ a, st.active = some a → a < st.nextId ∧ a ∉ st.inUse)

theorem mmInv_init : MMInv initMM := by
  refine ⟨fun t => rfl, ?_, List.nodup_nil, ?_, ?_⟩
  · intro t ht
    exact absurd ht (List.not_mem_nil t)
  · intro t _
    exact ⟨rfl, List.not_mem_nil t, List.not_mem_nil t⟩
  · intro a ha
    exact Option.noConfusion ha

theorem mem_retiredInUse {st : MMState} {t : Nat}
    (h : t ∈ retiredInUse st) :
    t ∈ st.inUse ∨ (st.active = some t ∧ 0 < st.usage t) := by
  unfold retiredInUse at h
  cases ha : st.active with
  | none =>
    simp only [ha] at h
    exact Or.inl h
  | some a =>
    simp only [ha] at h
    by_cases hu : 0 < st.usage a
    · rw [if_pos hu] at h
      rcases List.mem_cons.mp h with h | h
      · subst h
        exact Or.inr ⟨rfl, hu⟩
      · exact Or.inl h
    · rw [if_neg hu] at h
      exact Or.inl h

theorem nodup_retiredInUse {st : MMState} (h3 : st.inUse.Nodup)
    (h5 : ∀ a, st.active = some a → a < st.nextId ∧ a ∉ st.inUse) :
    (retiredInUse st).Nodup := by
  unfold retiredInUse
  cases ha : st.active with
  | none => exact h3
  | some a =>
    show (if 0 < st.usage a then a :: st.inUse else st.inUse).Nodup
    by_cases hu : 0 < st.usage a
    · rw [if_pos hu]
      exact List.nodup_cons.mpr ⟨(h5 a ha).2, h3⟩
    · rw [if_neg hu]
      exact h3

theorem not_mem_retiredInUse {st : MMState} {t : Nat}
    (hiu : t ∉ st.inUse) (hne : ∀ a, st.active = some a → a ≠ t) :
    t ∉ retiredInUse st := by
  intro hmem
  rcases mem_retiredInUse hmem with hmem | ⟨ha, _⟩
  · exact hiu hmem
  · exact hne t ha rfl

theorem mmInv_setActive (st : MMState) (h : MMInv st) :
    MMInv (setActiveMetadata st) := by
  obtain ⟨h1, h2, h3, h4, h5⟩ := h
  have hfresh := h4 st.nextId (Nat.le_refl st.nextId)
  refine ⟨?_, ?_, ?_, ?_, ?_⟩
  · intro t
    show (if t = st.nextId then 0 else st.usage t) = st.scopedRefs.count t
    by_cases ht : t = st.nextId
    · rw [if_pos ht, ht]
      exact (List.count_eq_zero.mpr hfresh.2.1).symm
    · rw [if_neg ht]
      exact h1 t
  · intro t htin
    have htin2 : t ∈ retiredInUse st := htin
    show 0 < if t = st.nextId then 0 else st.usage t
    rcases mem_retiredInUse htin2 with hm | ⟨ha, hu⟩
    · have hne : t ≠ st.nextId := by
        intro he
        exact (h4 t (he ▸ Nat.le_refl st.nextId)).2.2 hm
      rw [if_neg hne]
      exact h2 t hm
    · have hne : t ≠ st.nextId := by
        have := (h5 t ha).1
        omega
      rw [if_neg hne]
      exact hu
  · exact nodup_retiredInUse h3 h5
  · intro t htle
    have htle2 : st.nextId + 1 ≤ t := htle
    obtain ⟨hu, hsc, hiu⟩ := h4 t (by omega)
    refine ⟨?_, hsc, ?_⟩
    · show (if t = st.nextId then 0 else st.usage t) = 0
      rw [if_neg (by omega)]
      exact hu
    · show t ∉ retiredInUse st
      refine not_mem_retiredInUse hiu ?_
      intro a ha hat
      have := (h5 a ha).1
      omega
  · intro a ha
    have ha2 : some st.nextId = some a := ha
    have haeq : st.nextId = a := Option.some_inj.mp ha2
    constructor
    · show a < st.nextId + 1
      omega
    · show a ∉ retiredInUse st
      refine not_mem_retiredInUse ?_ ?_
      · rw [← haeq]
        exact hfresh.2.2
      · intro b hb hba
        have := (h5 b hb).1
        omega

theorem mmInv_getActive (st : MMState) (h : MMInv st) :
    MMInv (getActiveMetadata st) := by
  obtain ⟨h1, h2, h3, h4, h5⟩ := h
  cases ha : st.active with
  | none =>
    have hg : getActiveMetadata st = st := by
      simp only [getActiveMetadata, ha]
    rw [hg]
    exact ⟨h1, h2, h3, h4, h5⟩
  | some a =>
    have hg : getActiveMetadata st =
        { st with
            usage := fun t => if t = a then st.usage a + 1 else st.usage t,
            scopedRefs := a :: st.scopedRefs } := by
      simp only [getActiveMetadata, ha]
    rw [hg]
    obtain ⟨halt, hanotin⟩ := h5 a ha
    refine ⟨?_, ?_, h3, ?_, ?_⟩
    · intro t
      show (if t = a then st.usage a + 1 else st.usage t) =
        (a :: st.scopedRefs).count t
      by_cases ht : t = a
      · rw [if_pos ht, ht, List.count_cons_self, h1 a]
      · rw [if_neg ht, List.count_cons_of_ne ht, h1 t]
    · intro t htin
      have htin2 : t ∈ st.inUse := htin
      show 0 < if t = a then st.usage a + 1 else st.usage t
      by_cases ht : t = a
      · rw [if_pos ht]
        omega
      · rw [if_neg ht]
        exact h2 t htin2
    · intro t htle
      have htle2 : st.nextId ≤ t := htle
      obtain ⟨hu, hsc, hiu⟩ := h4 t htle2
      have hta : t ≠ a := by omega
      refine ⟨?_, ?_, hiu⟩
      · show (if t = a then st.usage a + 1 else st.usage t) = 0
        rw [if_neg hta]
        exact hu
      · show t ∉ a :: st.scopedRefs
        intro hmem
        rcases List.mem_cons.mp hmem with hmem | hmem
        · exact hta hmem
        · exact hsc hmem
    · intro b hb
      have hb2 : st.active = some b := hb
      exact h5 b hb2

theorem mmInv_destroyScoped (st : MMState) (t : Nat) (h : MMInv st) :
    MMInv (destroyScoped st t) := by
  obtain ⟨h1, h2, h3, h4, h5⟩ := h
  by_cases hs : t ∈ st.scopedRefs
  · have htusage : 0 < st.usage t := by
      rw [h1 t]
      exact List.count_pos_iff.mpr hs
    have htlt : t < st.nextId := by
      by_contra hge
      exact (h4 t (by omega)).2.1 hs
    by_cases hz : st.usage t - 1 = 0
    · have hd : destroyScoped st t =
          { st with
              usage := fun s => if s = t then st.usage t - 1 else st.usage s,
              scopedRefs := st.scopedRefs.erase t,
              inUse := st.inUse.erase t } := by
        simp only [destroyScoped, removeMetadata, if_pos hs, if_pos hz]
      rw [hd]
      refine ⟨?_, ?_, List.Nodup.erase t h3, ?_, ?_⟩
      · intro s
        show (if s = t then st.usage t - 1 else st.usage s) =
          (st.scopedRefs.erase t).count s
        by_cases hst : s = t
        · rw [if_pos hst, hst, List.count_erase_self, h1 t]
        · rw [if_neg hst, List.count_erase_of_ne hst, h1 s]
      · intro s hsin
        have hsin2 : s ∈ st.inUse.erase t := hsin
        obtain ⟨hsne, hsmem⟩ := (List.Nodup.mem_erase_iff h3).mp hsin2
        show 0 < if s = t then st.usage t - 1 else st.usage s
        rw [if_neg hsne]
        exact h2 s hsmem
      · intro s hsle
        have hsle2 : st.nextId ≤ s := hsle
        obtain ⟨hu, hsc, hiu⟩ := h4 s hsle2
        have hsne : s ≠ t := by omega
        refine ⟨?_, ?_, ?_⟩
        · show (if s = t then st.usage t - 1 else st.usage s) = 0
          rw [if_neg hsne]
          exact hu
        · intro hmem
          exact hsc (List.mem_of_mem_erase hmem)
        · intro hmem
          exact hiu (List.mem_of_mem_erase hmem)
      · intro a ha
        have ha2 : st.active = some a := ha
        refine ⟨(h5 a ha2).1, ?_⟩
        intro hmem
        exact (h5 a ha2).2 (List.mem_of_mem_erase hmem)
    · have hd : destroyScoped st t =
          { st with
              usage := fun s => if s = t then st.usage t - 1 else st.usage s,
              scopedRefs := st.scopedRefs.erase t } := by
        simp only [destroyScoped, if_pos hs, if_neg hz]
      rw [hd]
      refine ⟨?_, ?_, h3, ?_, ?_⟩
      · intro s
        show (if s = t then st.usage t - 1 else st.usage s) =
          (st.scopedRefs.erase t).count s
        by_cases hst : s = t
        · rw [if_pos hst, hst, List.count_erase_self, h1 t]
        · rw [if_neg hst, List.count_erase_of_ne hst, h1 s]
      · intro s hsin
        have hsin2 : s ∈ st.inUse := hsin
        show 0 < if s = t then st.usage t - 1 else st.usage s
        by_cases hst : s = t
        · rw [if_pos hst]
          omega
        · rw [if_neg hst]
          exact h2 s hsin2
      · intro s hsle
        have hsle2 : st.nextId ≤ s := hsle
        obtain ⟨hu, hsc, hiu⟩ := h4 s hsle2
        have hsne : s ≠ t := by omega
        refine ⟨?_, ?_, hiu⟩
        · show (if s = t then st.usage t - 1 else st.usage s) = 0
          rw [if_neg hsne]
          exact hu
        · intro hmem
          exact hsc (List.mem_of_mem_erase hmem)
      · intro a ha
        have ha2 : st.active = some a := ha
        exact h5 a ha2
  · have hd : destroyScoped st t = st := by
      simp only [destroyScoped, if_neg hs]
    rw [hd]
    exact ⟨h1, h2, h3, h4, h5⟩

theorem mmInv_applyMMOp (st : MMState) (op : MMOp) (h : MMInv st) :
    MMInv (applyMMOp st op) := by
  cases op with
  | opSetActive => exact mmInv_setActive st h
  | opGetActive => exact mmInv_getActive st h
  | opDestroyScoped t => exact mmInv_destroyScoped st t h

theorem mmInv_applyMMOps (st : MMState) (ops : List MMOp) (h : MMInv st) :
    MMInv (applyMMOps st ops) := by
  induction ops generalizing st with
  | nil => exact h
  | cons op ops ih => exact ih (applyMMOp st op) (mmInv_applyMMOp st op h)

theorem getActive_increments (st : MMState) (a : Nat)
    (ha : st.active = some a) :
    (getActiveMetadata st).usage a = st.usage a + 1 := by
  unfold getActiveMetadata
  simp [ha]

theorem destroyScoped_decrements (st : MMState) (t : Nat) (h : MMInv st)
    (hs : t ∈ st.scopedRefs) :
    (destroyScoped st t).usage t = st.usage t - 1 ∧
    ((destroyScoped st t).usage t = 0 → t ∉ (destroyScoped st t).inUse) ∧
    (0 < (destroyScoped st t).usage t →
      (destroyScoped st t).inUse = st.inUse) := by
  by_cases hz : st.usage t - 1 = 0
  · have hd : destroyScoped st t =
        { st with
            usage := fun s => if s = t then st.usage t - 1 else st.usage s,
            scopedRefs := st.scopedRefs.erase t,
            inUse := st.inUse.erase t } := by
      simp only [destroyScoped, removeMetadata, if_pos hs, if_pos hz]
    rw [hd]
    refine ⟨?_, ?_, ?_⟩
    · show (if t = t then st.usage t - 1 else st.usage t) = st.usage t - 1
      rw [if_pos rfl]
    · intro _
      show t ∉ st.inUse.erase t
      exact List.Nodup.not_mem_erase h.2.2.1
    · intro hpos
      exfalso
      have hpos2 : 0 < (if t = t then st.usage t - 1 else st.usage t) := hpos
      rw [if_pos rfl] at hpos2
      omega
  · have hd : destroyScoped st t =
        { st with
            usage := fun s => if s = t then st.usage t - 1 else st.usage s,
            scopedRefs := st.scopedRefs.erase t } := by
      simp only [destroyScoped, if_pos hs, if_neg hz]
    rw [hd]
    refine ⟨?_, ?_, ?_⟩
    · show (if t = t then st.usage t - 1 else st.usage t) = st.usage t - 1
      rw [if_pos rfl]
    · intro h0
      have h02 : (if t = t then st.usage t - 1 else st.usage t) = 0 := h0
      rw [if_pos rfl] at h02
      exact absurd h02 hz
    · intro _
      rfl

/-- C10: along every operation sequence of the metadata manager, each
tracker's usage counter equals the number of live scoped references to it;
every tracker on the in-use list is still referenced; obtaining the active
metadata increments the active tracker's counter by one; and destroying a
scoped reference decrements its tracker's counter by one and removes the
tracker from the in-use list exactly when the counter reaches zero. -/
theorem metadata_refcount_invariant (ops : List MMOp) :
    (∀ t, (applyMMOps initMM ops).usage t =
      (applyMMOps initMM ops).scopedRefs.count t) ∧
    (∀ t ∈ (applyMMOps initMM ops).inUse,
      0 < (applyMMOps initMM ops).usage t) ∧
    (∀ a, (applyMMOps initMM ops).active = some a →
      (getActiveMetadata (applyMMOps initMM ops)).usage a =
        (applyMMOps initMM ops).usage a + 1) ∧
    (∀ t, t ∈ (applyMMOps initMM ops).scopedRefs →
      (destroyScoped (applyMMOps initMM ops) t).usage t =
        (applyMMOps initMM ops).usage t - 1 ∧
      ((destroyScoped (applyMMOps initMM ops) t).usage t = 0 →
        t ∉ (destroyScoped (applyMMOps initMM ops) t).inUse) ∧
      (0 < (destroyScoped (applyMMOps initMM ops) t).usage t →
        (destroyScoped (applyMMOps initMM ops) t).inUse =
          (applyMMOps initMM ops).inUse)) := by
  have hinv : MMInv (applyMMOps initMM ops) :=
    mmInv_applyMMOps initMM ops mmInv_init
  refine ⟨hinv.1, hinv.2.1, ?_, ?_⟩
  · intro a ha
    exact getActive_increments (applyMMOps initMM ops) a ha
  · intro t ht
    exact destroyScoped_decrements (applyMMOps initMM ops) t hinv ht

/-- A sample manager history: activate, hand out two references, supersede
the metadata, then drop both references. -/
def demoMMOps : List MMOp :=
  [MMOp.opSetActive, MMOp.opGetActive, MMOp.opGetActive, MMOp.opSetActive,
   MMOp.opDestroyScoped 0, MMOp.opDestroyScoped 0]

/-- Witness for C10 on the sample manager history. -/
theorem metadata_refcount_invariant_witness :
    (∀ t, (applyMMOps initMM demoMMOps).usage t =
      (applyMMOps initMM demoMMOps).scopedRefs.count t) ∧
    (∀ t ∈ (applyMMOps initMM demoMMOps).inUse,
      0 < (applyMMOps initMM demoMMOps).usage t) ∧
    (∀ a, (applyMMOps initMM demoMMOps).active = some a →
      (getActiveMetadata (applyMMOps initMM demoMMOps)).usage a =
        (applyMMOps initMM demoMMOps).usage a + 1) ∧
    (∀ t, t ∈ (applyMMOps initMM demoMMOps).scopedRefs →
      (destroyScoped (applyMMOps initMM demoMMOps) t).usage t =
        (applyMMOps initMM demoMMOps).usage t - 1 ∧
      ((destroyScoped (applyMMOps initMM demoMMOps) t).usage t = 0 →
        t ∉ (destroyScoped (applyMMOps initMM demoMMOps) t).inUse) ∧
      (0 < (destroyScoped (applyMMOps initMM demoMMOps) t).usage t →
        (destroyScoped (applyMMOps initMM demoMMOps) t).inUse =
          (applyMMOps initMM demoMMOps).inUse)) :=
  metadata_refcount_invariant demoMMOps

end MetadataManagerModel
